import Mathlib

/-
Verification of the Sensor-flex 2.2 sketch (src/sketch_oct21a.ino).

The sketch reads four flex sensors through a shared-cursor moving-average
filter, normalizes the smoothed readings to [0,1], and renders two LED strips
with an end-to-start cascade plus a sinusoidal additive pulse overlay.

Shallow embedding conventions:
- C unsigned integers are modelled as Nat; where a narrowing cast can act,
  the reduction modulo 2^w is written explicitly or the in-range argument is
  carried in the theorems.
- C float arithmetic is modelled over the rationals, and the trigonometric
  pulse phase over the reals.
- The FastLED library (CHSV -> CRGB conversion and the saturating CRGB
  addition) is not part of the repository; those two operations are modelled
  from the specification and marked as such in their doc comments.
-/

namespace SensorFlex

/-- NUM_LEDS_PER_STRIP (line 11). -/
def NUM_LEDS_PER_STRIP : Nat := 75

/-- smoothingSamples (line 30): size of each moving-average history. -/
def smoothingSamples : Nat := 8

/-- The ESP32 ADC full-scale value used by the sketch (line 64: 0..4095). -/
def ADC_MAX : Nat := 4095

/-- The mutable smoothing state of the sketch: the four per-channel history
buffers `adcHist1..adcHist4` (line 33) and the single shared write cursor
`histIndex` (line 34). -/
structure SmoothState where
  adcHist1 : List Nat
  adcHist2 : List Nat
  adcHist3 : List Nat
  adcHist4 : List Nat
  histIndex : Nat

/-- readADC_smooth (lines 90-103), generic in the window size `W`
(the sketch instantiates `W = smoothingSamples = 8`).  The raw ADC value
`val` is written at the shared cursor, the cursor advances (wrapping at `W`)
only when the pin is ADC_PIN_4 (`isPin4`), and the integer-truncated mean of
the whole history is returned.  Result: (new history, new cursor, mean). -/
def readADC_smooth (W : Nat) (isPin4 : Bool) (val : Nat) (hist : List Nat)
    (histIndex : Nat) : List Nat × Nat × Nat :=
  let hist' := hist.set histIndex val
  let idx' := if isPin4 then (if histIndex + 1 ≥ W then 0 else histIndex + 1)
              else histIndex
  (hist', idx', hist'.sum / W)

/-- One frame of the smoothing part of loop() (lines 59-62): the four
channels are read in the fixed order pins 1,2,3,4, threading the shared
cursor; only the pin-4 call advances it.  Result: (new state, s1, s2, s3, s4). -/
def loopSmooth (W : Nat) (st : SmoothState) (f : Nat × Nat × Nat × Nat) :
    SmoothState × Nat × Nat × Nat × Nat :=
  let p1 := readADC_smooth W false f.1 st.adcHist1 st.histIndex
  let p2 := readADC_smooth W false f.2.1 st.adcHist2 p1.2.1
  let p3 := readADC_smooth W false f.2.2.1 st.adcHist3 p2.2.1
  let p4 := readADC_smooth W true f.2.2.2 st.adcHist4 p3.2.1
  (⟨p1.1, p2.1, p3.1, p4.1, p4.2.1⟩, p1.2.2, p2.2.2, p3.2.2, p4.2.2)

/-- Iterated frames of loop(): the smoothing state after feeding the listed
raw-sample quadruples (one per frame, channels 1..4). -/
def runFrames (W : Nat) (st : SmoothState) (fs : List (Nat × Nat × Nat × Nat)) :
    SmoothState :=
  fs.foldl (fun s f => (loopSmooth W s f).1) st

/-- setup() lines 46-54.  `r1 r2 r3 r4` are the per-pin raw sample streams:
`rc k` is the value returned by the k-th analogRead of that pin.  One sample
of pin 1 is taken before the loop and copied to every slot of adcHist1, while
each loop iteration takes a fresh sample of pins 2, 3 and 4 for the current
slot.  The global arrays start zeroed, and histIndex ends at 0. -/
def setupState (r1 r2 r3 r4 : Nat → Nat) : SmoothState :=
  let firstRead := r1 0
  (List.range smoothingSamples).foldl
    (fun st i =>
      { st with
        adcHist1 := st.adcHist1.set i firstRead
        adcHist2 := st.adcHist2.set i (r2 i)
        adcHist3 := st.adcHist3.set i (r3 i)
        adcHist4 := st.adcHist4.set i (r4 i) })
    ⟨List.replicate smoothingSamples 0, List.replicate smoothingSamples 0,
     List.replicate smoothingSamples 0, List.replicate smoothingSamples 0, 0⟩

/-- Reference form of a circular-buffer write sequence: starting with cursor
value `c`, write each sample of `rs` in turn at position (cursor mod W) and
step the cursor.  The frame model is proved to reduce to this per channel. -/
def histFrom (W : Nat) : Nat → List Nat → List Nat → List Nat
  | _, init, [] => init
  | c, init, r :: rs => histFrom W (c + 1) (init.set (c % W) r) rs

/-- A color triple as stored in a pixel buffer (FastLED CRGB); each field is
a uint8 value, kept as Nat with the 0..255 range carried in the theorems. -/
structure CRGB where
  r : Nat
  g : Nat
  b : Nat
deriving DecidableEq

/-- CRGB::Black (line 112). -/
def black : CRGB := ⟨0, 0, 0⟩

/-- Modelled from the spec: FastLED's saturating byte addition qadd8, the
per-channel operation of CRGB operator += (line 140); the library is not
part of the repository.  Glossary: "Additive blend (saturating): combining
two colors by summing per-channel intensities and clamping each at the
maximum representable value instead of overflowing". -/
def qadd8 (a b : Nat) : Nat := min (a + b) 255

/-- Modelled from the spec: FastLED CRGB operator += (line 140), the
saturating per-channel additive blend. -/
def addColor (c p : CRGB) : CRGB := ⟨qadd8 c.r p.r, qadd8 c.g p.g, qadd8 c.b p.b⟩

/-- Modelled from the spec: FastLED's CHSV -> CRGB conversion used on
assignment at lines 118 and 138; the library is not part of the repository.
The spec requires a color "built from (hue, fixed saturation, brightness)"
whose brightness channel scales the output, zero brightness contributing
nothing.  We use the standard integer HSV -> RGB conversion: every output
channel is one of v, p, q, t, each at most v. -/
def hsv2rgb (h s v : Nat) : CRGB :=
  if s = 0 then ⟨v, v, v⟩
  else
    let region := h / 43
    let rem := (h % 43) * 6
    let p := v * (255 - s) / 255
    let q := v * (255 - s * rem / 255) / 255
    let t := v * (255 - s * (255 - rem) / 255) / 255
    match region with
    | 0 => ⟨v, t, p⟩
    | 1 => ⟨q, v, p⟩
    | 2 => ⟨p, v, t⟩
    | 3 => ⟨p, q, v⟩
    | 4 => ⟨t, p, v⟩
    | _ => ⟨v, p, q⟩

/-- The fixed cascade base color CHSV(160, 200, 255) (line 118). -/
def baseColor : CRGB := hsv2rgb 160 200 255

/-- The Arduino constrain macro over the rational model of float. -/
def constrainQ (x lo hi : ℚ) : ℚ := if x < lo then lo else if x > hi then hi else x

/-- Normalization of a smoothed sample (lines 65-68):
constrain(s / fullScale, 0, 1).  The sketch instantiates fullScale = ADC_MAX
= 4095; the parameter matches the spec's Normalizer contract. -/
def normalize (s fullScale : Nat) : ℚ :=
  constrainQ ((s : ℚ) / (fullScale : ℚ)) 0 1

/-- ledsToLight (line 109): (uint16_t) round(normCascade * nLeds).  For the
fractions 0 ≤ q ≤ 1 produced by normalization the rounded value lies in
[0, nLeds], so the uint16 cast is the identity (nLeds is 75). -/
def ledsToLight (q : ℚ) (n : Nat) : Nat := (round (q * (n : ℚ))).toNat

/-- Lines 112-119: clear the strip to black, then set pixels
(nLeds-1), (nLeds-2), ..., (nLeds-lit) to the base color. -/
def cascadeBuffer (n lit : Nat) : List CRGB :=
  (List.range lit).foldl (fun buf i => buf.set (n - 1 - i) baseColor)
    (List.replicate n black)

/-- Pulse hue (line 123): (uint8_t) round(normPulse * 255.0); in range for
0 ≤ q ≤ 1, so the uint8 cast is the identity. -/
def hueOf (q : ℚ) : Nat := (round (q * 255)).toNat

/-- Pulse amplitude (line 128): (uint8_t)(normPulse * 200.0), a truncating
float-to-integer cast; in range for 0 ≤ q ≤ 1. -/
def pulseAmp (q : ℚ) : Nat := (⌊q * 200⌋).toNat

/-- The Arduino map() function: integer linear interpolation with C truncated
division. -/
def mapArduino (x inMin inMax outMin outMax : ℤ) : ℤ :=
  ((x - inMin) * (outMax - outMin)).tdiv (inMax - inMin) + outMin

/-- Pulse period before the uint16 cast (line 126):
map((int) round(normPulse * 1000.0), 0, 1000, 1400, 150). -/
def pulsePeriodZ (q : ℚ) : ℤ := mapArduino (round (q * 1000)) 0 1000 1400 150

/-- Pulse period (line 126) after the uint16 cast (reduction mod 2^16, the
identity on the values 150..1400 reached for 0 ≤ q ≤ 1). -/
def pulsePeriod (q : ℚ) : Nat := (pulsePeriodZ q % 65536).toNat

/-- Pulse phase (line 132): (sin(2 pi (t mod period) / period) + 1) / 2, with
t the elapsed milliseconds.  The sketch computes this in float with the
Arduino PI constant; it is modelled over the reals with the exact pi. -/
noncomputable def phase (q : ℚ) (t : Nat) : ℝ :=
  (Real.sin (2 * Real.pi * ((t % pulsePeriod q : Nat) : ℝ) /
      ((pulsePeriod q : Nat) : ℝ)) + 1) / 2

/-- The brightness byte of line 133: (uint8_t)(phase * pulseAmp), a
truncating float-to-integer cast (in range: 0 ≤ phase ≤ 1, amp ≤ 200). -/
noncomputable def pulseBrightOf (ph : ℝ) (amp : Nat) : Nat :=
  (⌊ph * (amp : ℝ)⌋).toNat

/-- pulseBright (line 133) as a function of the pulse fraction and time. -/
noncomputable def pulseBright (q : ℚ) (t : Nat) : Nat :=
  pulseBrightOf (phase q t) (pulseAmp q)

/-- handleCascadeAndPulse (lines 105-142): the full per-strip frame render.
The cascade pass clears the buffer and lights the last ledsToLight pixels
with the base color; the pulse pass additively blends
CHSV(hue, 200, pulseBright) onto every pixel. -/
noncomputable def handleCascadeAndPulse (nLeds : Nat) (normCascade normPulse : ℚ)
    (t : Nat) : List CRGB :=
  (cascadeBuffer nLeds (ledsToLight normCascade nLeds)).map
    (fun c => addColor c (hsv2rgb (hueOf normPulse) 200 (pulseBright normPulse t)))

/-! ### List helper lemmas for the smoothing proofs -/

theorem list_sum_eq_sum_getD (l : List Nat) :
    l.sum = ∑ i ∈ Finset.range l.length, l.getD i 0 := by
  induction l with
  | nil => simp
  | cons a l ih =>
    rw [List.sum_cons, ih, List.length_cons, Finset.sum_range_succ']
    simp
    omega

theorem sum_set_add (l : List Nat) (j v : Nat) (hj : j < l.length) :
    (l.set j v).sum + l.getD j 0 = l.sum + v := by
  induction l generalizing j with
  | nil => simp at hj
  | cons a l ih =>
    cases j with
    | zero => simp; omega
    | succ j =>
      simp only [List.set_cons_succ, List.sum_cons, List.getD_cons_succ]
      have := ih j (by simpa using Nat.lt_of_succ_lt_succ hj)
      omega

theorem getD_set_ne (l : List Nat) (i j v d : Nat) (h : i ≠ j) :
    (l.set i v).getD j d = l.getD j d := by
  simp [List.getD_eq_getElem?_getD, List.getElem?_set_ne h]

/-! ### Circular-write lemmas: what the shared-cursor buffer holds -/

theorem histFrom_length (W c : Nat) (init rs : List Nat) :
    (histFrom W c init rs).length = init.length := by
  induction rs generalizing c init with
  | nil => rfl
  | cons r rs ih => simpa [histFrom] using ih (c + 1) (init.set (c % W) r)

theorem histFrom_append (W c : Nat) (init a b : List Nat) :
    histFrom W c init (a ++ b) =
      histFrom W (c + a.length) (histFrom W c init a) b := by
  induction a generalizing c init with
  | nil => simp [histFrom]
  | cons x a ih =>
    show histFrom W (c + 1) (init.set (c % W) x) (a ++ b) =
      histFrom W (c + (a.length + 1)) (histFrom W (c + 1) (init.set (c % W) x) a) b
    rw [ih, show c + (a.length + 1) = c + 1 + a.length from by omega]

theorem histFrom_congr_mod (W c c' : Nat) (init rs : List Nat)
    (h : c % W = c' % W) :
    histFrom W c init rs = histFrom W c' init rs := by
  induction rs generalizing c c' init with
  | nil => rfl
  | cons r rs ih =>
    simp only [histFrom, h]
    exact ih (c + 1) (c' + 1) _ (by rw [← Nat.mod_add_mod, h, Nat.mod_add_mod])

theorem sum_range_cycle (W : Nat) (hW : 0 < W) (g : Nat → Nat) (c : Nat) :
    ∑ i ∈ Finset.range W, g ((c + i) % W) = ∑ i ∈ Finset.range W, g i := by
  induction c with
  | zero =>
    refine Finset.sum_congr rfl fun i hi => ?_
    rw [Nat.zero_add, Nat.mod_eq_of_lt (Finset.mem_range.mp hi)]
  | succ c ih =>
    rw [← ih]
    obtain ⟨W', rfl⟩ : ∃ W', W = W' + 1 := ⟨W - 1, by omega⟩
    rw [Finset.sum_range_succ, Finset.sum_range_succ' (fun i => g ((c + i) % (W' + 1)))]
    have h1 : (c + 1 + W') % (W' + 1) = c % (W' + 1) := by
      rw [show c + 1 + W' = c + (W' + 1) by omega, Nat.add_mod_right]
    have h2 : ∀ i, c + (i + 1) = c + 1 + i := by omega
    rw [h1]
    refine congrArg₂ (· + ·) (Finset.sum_congr rfl fun i _ => ?_) rfl
    rw [h2 i]

theorem histFrom_sum_partial (W : Nat) (hW : 0 < W) :
    ∀ (rs : List Nat) (c : Nat) (init : List Nat), init.length = W →
      rs.length ≤ W →
      (histFrom W c init rs).sum +
        ∑ i ∈ Finset.range rs.length, init.getD ((c + i) % W) 0 =
      init.sum + rs.sum := by
  intro rs
  induction rs with
  | nil => intro c init _ _; simp [histFrom]
  | cons r rs ih =>
    intro c init hinit hlen
    have hlen' : rs.length + 1 ≤ W := by simpa using hlen
    have hcW : c % W < init.length := by rw [hinit]; exact Nat.mod_lt c hW
    have hset : (init.set (c % W) r).length = W := by simp [hinit]
    have hIH := ih (c + 1) (init.set (c % W) r) hset (by omega)
    have hne : ∀ i, i < rs.length →
        (init.set (c % W) r).getD ((c + 1 + i) % W) 0 =
          init.getD ((c + 1 + i) % W) 0 := by
      intro i hi
      refine getD_set_ne _ _ _ _ _ fun heq => ?_
      have hmod : (c + (1 + i)) % W = (c + 0) % W := by
        rw [Nat.add_zero]
        rw [show c + (1 + i) = c + 1 + i by omega, heq]
      have hdvd : (1 + i) % W = 0 % W := Nat.ModEq.add_left_cancel' c hmod
      have h1i : 1 + i < W := by omega
      rw [Nat.mod_eq_of_lt h1i, Nat.zero_mod] at hdvd
      omega
    have hsum : ∑ i ∈ Finset.range rs.length,
        (init.set (c % W) r).getD ((c + 1 + i) % W) 0 =
        ∑ i ∈ Finset.range rs.length, init.getD ((c + 1 + i) % W) 0 :=
      Finset.sum_congr rfl fun i hi => hne i (Finset.mem_range.mp hi)
    have hpeel : ∑ i ∈ Finset.range (rs.length + 1), init.getD ((c + i) % W) 0 =
        (∑ i ∈ Finset.range rs.length, init.getD ((c + (i + 1)) % W) 0) +
          init.getD ((c + 0) % W) 0 :=
      Finset.sum_range_succ' (fun i => init.getD ((c + i) % W) 0) rs.length
    have hshift : ∑ i ∈ Finset.range rs.length, init.getD ((c + (i + 1)) % W) 0 =
        ∑ i ∈ Finset.range rs.length, init.getD ((c + 1 + i) % W) 0 := by
      refine Finset.sum_congr rfl fun i _ => ?_
      rw [show c + (i + 1) = c + 1 + i by omega]
    have hsetsum : (init.set (c % W) r).sum + init.getD (c % W) 0 =
        init.sum + r := sum_set_add init (c % W) r hcW
    rw [hsum] at hIH
    simp only [histFrom, List.length_cons, List.sum_cons]
    rw [hpeel, hshift]
    simp only [Nat.add_zero]
    omega

theorem histFrom_sum_window (W : Nat) (hW : 0 < W) (c : Nat) (init rs : List Nat)
    (hinit : init.length = W) (hrs : rs.length = W) :
    (histFrom W c init rs).sum = rs.sum := by
  have h := histFrom_sum_partial W hW rs c init hinit (le_of_eq hrs)
  have hcyc : ∑ i ∈ Finset.range rs.length, init.getD ((c + i) % W) 0 =
      init.sum := by
    rw [hrs]
    have h1 := sum_range_cycle W hW (fun j => init.getD j 0) c
    have h2 : init.sum = ∑ i ∈ Finset.range W, init.getD i 0 := by
      rw [list_sum_eq_sum_getD init, hinit]
    exact h1.trans h2.symm
  omega

theorem histFrom_sum_drop (W : Nat) (hW : 0 < W) (c : Nat) (init rs : List Nat)
    (hinit : init.length = W) (hge : W ≤ rs.length) :
    (histFrom W c init rs).sum = (rs.drop (rs.length - W)).sum := by
  have hsplit : rs = rs.take (rs.length - W) ++ rs.drop (rs.length - W) :=
    (List.take_append_drop _ _).symm
  have hdlen : (rs.drop (rs.length - W)).length = W := by
    rw [List.length_drop]; omega
  have hstep : histFrom W c init rs =
      histFrom W (c + (rs.take (rs.length - W)).length)
        (histFrom W c init (rs.take (rs.length - W)))
        (rs.drop (rs.length - W)) := by
    conv_lhs => rw [hsplit]
    rw [histFrom_append]
  rw [hstep]
  exact histFrom_sum_window W hW _ _ _
    (by rw [histFrom_length, hinit]) hdlen

/-! ### Frame-level characterization of the smoothing loop -/

theorem runFrames_spec (W : Nat) (hW : 0 < W) (fs : List (Nat × Nat × Nat × Nat)) :
    ∀ (h1 h2 h3 h4 : List Nat) (i : Nat), i < W →
      runFrames W ⟨h1, h2, h3, h4, i⟩ fs =
        ⟨histFrom W i h1 (fs.map fun f => f.1),
         histFrom W i h2 (fs.map fun f => f.2.1),
         histFrom W i h3 (fs.map fun f => f.2.2.1),
         histFrom W i h4 (fs.map fun f => f.2.2.2),
         (i + fs.length) % W⟩ := by
  induction fs with
  | nil =>
    intro h1 h2 h3 h4 i hi
    simp [runFrames, histFrom, Nat.mod_eq_of_lt hi]
  | cons f fs ih =>
    intro h1 h2 h3 h4 i hi
    have hidx : (if i + 1 ≥ W then 0 else i + 1) = (i + 1) % W := by
      rcases Nat.lt_or_ge (i + 1) W with h | h
      · rw [if_neg (by omega), Nat.mod_eq_of_lt h]
      · have hiW : i + 1 = W := by omega
        rw [if_pos h, hiW, Nat.mod_self]
    have hstep : (loopSmooth W ⟨h1, h2, h3, h4, i⟩ f).1 =
        ⟨h1.set i f.1, h2.set i f.2.1, h3.set i f.2.2.1, h4.set i f.2.2.2,
         (i + 1) % W⟩ := by
      simp only [loopSmooth, readADC_smooth]
      simp [hidx]
    have hm : (i + 1) % W < W := Nat.mod_lt _ hW
    calc runFrames W ⟨h1, h2, h3, h4, i⟩ (f :: fs)
        = runFrames W (loopSmooth W ⟨h1, h2, h3, h4, i⟩ f).1 fs := rfl
      _ = _ := by
          rw [hstep, ih _ _ _ _ _ hm]
          simp only [List.map_cons, List.length_cons, histFrom,
            Nat.mod_eq_of_lt hi, SmoothState.mk.injEq]
          refine ⟨?_, ?_, ?_, ?_, ?_⟩ <;>
            first
            | exact histFrom_congr_mod W _ _ _ _ (Nat.mod_mod_of_dvd _ dvd_rfl)
            | rw [Nat.mod_add_mod,
                show i + 1 + fs.length = i + (fs.length + 1) from by omega]

/-- The state produced by setup(): channel 1 gets one real sample copied to
all slots, channels 2-4 get one fresh sample per slot, cursor 0. -/
theorem setupState_eq (r1 r2 r3 r4 : Nat → Nat) :
    setupState r1 r2 r3 r4 =
      ⟨List.replicate smoothingSamples (r1 0),
       (List.range smoothingSamples).map r2,
       (List.range smoothingSamples).map r3,
       (List.range smoothingSamples).map r4, 0⟩ := rfl

theorem set_cursor_eq_histFrom_append (W n : Nat)
    (h rs : List Nat) (v : Nat) (hrs : rs.length = n) :
    (histFrom W 0 h rs).set ((0 + n) % W) v = histFrom W 0 h (rs ++ [v]) := by
  rw [histFrom_append W 0 h rs [v]]
  show _ = (histFrom W 0 h rs).set ((0 + rs.length) % W) v
  rw [hrs]

/-- C1: under the frame loop's fixed calling order (pins 1,2,3,4, the shared
cursor advanced only by the pin-4 call), for every window W ≥ 1 and every
sample sequence, once at least W frames have been observed the value returned
by readADC_smooth for each channel is the integer-truncated mean of that
channel's most recent W raw samples. -/
theorem readADC_smooth_mean (W : Nat) (hW : 1 ≤ W) (h1 h2 h3 h4 : List Nat)
    (l1 : h1.length = W) (l2 : h2.length = W) (l3 : h3.length = W)
    (l4 : h4.length = W) (fs : List (Nat × Nat × Nat × Nat))
    (f : Nat × Nat × Nat × Nat) (hcount : W ≤ fs.length + 1) :
    ((loopSmooth W (runFrames W ⟨h1, h2, h3, h4, 0⟩ fs) f).2.1 =
      (((fs ++ [f]).map fun g => g.1).drop (fs.length + 1 - W)).sum / W) ∧
    ((loopSmooth W (runFrames W ⟨h1, h2, h3, h4, 0⟩ fs) f).2.2.1 =
      (((fs ++ [f]).map fun g => g.2.1).drop (fs.length + 1 - W)).sum / W) ∧
    ((loopSmooth W (runFrames W ⟨h1, h2, h3, h4, 0⟩ fs) f).2.2.2.1 =
      (((fs ++ [f]).map fun g => g.2.2.1).drop (fs.length + 1 - W)).sum / W) ∧
    ((loopSmooth W (runFrames W ⟨h1, h2, h3, h4, 0⟩ fs) f).2.2.2.2 =
      (((fs ++ [f]).map fun g => g.2.2.2).drop (fs.length + 1 - W)).sum / W) := by
  have h0W : 0 < W := hW
  rw [runFrames_spec W h0W fs h1 h2 h3 h4 0 h0W]
  have key : ∀ (h rs : List Nat) (v : Nat), h.length = W → rs.length = fs.length →
      ((histFrom W 0 h rs).set ((0 + fs.length) % W) v).sum / W =
        ((rs ++ [v]).drop (fs.length + 1 - W)).sum / W := by
    intro h rs v hh hrs
    rw [set_cursor_eq_histFrom_append W fs.length h rs v hrs,
      histFrom_sum_drop W h0W 0 h (rs ++ [v]) hh
        (by simp [hrs]; omega)]
    have hlen2 : (rs ++ [v]).length = fs.length + 1 := by simp [hrs]
    rw [hlen2]
  have hmap : ∀ (p : Nat × Nat × Nat × Nat → Nat),
      (fs ++ [f]).map p = fs.map p ++ [p f] := by
    intro p; rw [List.map_append]; rfl
  refine ⟨?_, ?_, ?_, ?_⟩ <;>
    simp only [loopSmooth, readADC_smooth, hmap] <;>
    exact key _ _ _ (by assumption) (by simp)

/-- Witness for the smoothing-mean theorem: window 2, two frames; the channel-1
return value in the second frame is the mean of its last two raw samples. -/
theorem readADC_smooth_mean_witness :
    (loopSmooth 2 (runFrames 2 ⟨[0, 0], [0, 0], [0, 0], [0, 0], 0⟩
        [(1, 2, 3, 4)]) (5, 6, 7, 8)).2.1 = 3 := by
  have h := readADC_smooth_mean 2 (by norm_num) [0, 0] [0, 0] [0, 0] [0, 0]
    rfl rfl rfl rfl [(1, 2, 3, 4)] (5, 6, 7, 8) (by norm_num)
  exact h.1.trans (by decide)

/-- Helper: a single readADC_smooth call keeps the cursor below the window
size and preserves the history length. -/
theorem readADC_smooth_inv (W : Nat) (hW : 0 < W) (b : Bool) (v : Nat)
    (hist : List Nat) (i : Nat) (hi : i < W) (hlen : hist.length = W) :
    (readADC_smooth W b v hist i).2.1 < W ∧
    (readADC_smooth W b v hist i).1.length = W := by
  refine ⟨?_, by simp [readADC_smooth, hlen]⟩
  cases b
  · simpa [readADC_smooth] using hi
  · simp only [readADC_smooth]
    simp only [if_true]
    split_ifs <;> omega

/-- C9: the shared cursor stays in [0, smoothingSamples) and every history
buffer keeps length smoothingSamples = 8: (a) across any single
readADC_smooth call from a state satisfying the invariant, and (b) in every
state reachable from setup() by whole frames of loop(). -/
theorem histIndex_invariant :
    (∀ (b : Bool) (v : Nat) (hist : List Nat) (i : Nat),
        i < smoothingSamples → hist.length = smoothingSamples →
        (readADC_smooth smoothingSamples b v hist i).2.1 < smoothingSamples ∧
        (readADC_smooth smoothingSamples b v hist i).1.length = smoothingSamples) ∧
    (∀ (r1 r2 r3 r4 : Nat → Nat) (fs : List (Nat × Nat × Nat × Nat)),
        (runFrames smoothingSamples (setupState r1 r2 r3 r4) fs).histIndex <
          smoothingSamples ∧
        (runFrames smoothingSamples (setupState r1 r2 r3 r4) fs).adcHist1.length =
          smoothingSamples ∧
        (runFrames smoothingSamples (setupState r1 r2 r3 r4) fs).adcHist2.length =
          smoothingSamples ∧
        (runFrames smoothingSamples (setupState r1 r2 r3 r4) fs).adcHist3.length =
          smoothingSamples ∧
        (runFrames smoothingSamples (setupState r1 r2 r3 r4) fs).adcHist4.length =
          smoothingSamples) := by
  have h8 : 0 < smoothingSamples := by norm_num [smoothingSamples]
  constructor
  · intro b v hist i hi hlen
    exact readADC_smooth_inv smoothingSamples h8 b v hist i hi hlen
  · intro r1 r2 r3 r4 fs
    rw [setupState_eq, runFrames_spec smoothingSamples h8 fs _ _ _ _ 0 h8]
    refine ⟨Nat.mod_lt _ h8, ?_, ?_, ?_, ?_⟩ <;> simp [histFrom_length]

/-- Witness for the cursor invariant: one concrete readADC_smooth call at
cursor 7 wraps back into range and keeps the buffer length. -/
theorem histIndex_invariant_witness :
    (readADC_smooth smoothingSamples true 5 [9, 9, 9, 9, 9, 9, 9, 9] 7).2.1 <
      smoothingSamples ∧
    (readADC_smooth smoothingSamples true 5 [9, 9, 9, 9, 9, 9, 9, 9] 7).1.length =
      smoothingSamples :=
  histIndex_invariant.1 true 5 [9, 9, 9, 9, 9, 9, 9, 9] 7 (by decide) (by decide)

/-- Counterexample to C3 as stated: with pin-2 raw samples 0,1,2,... the
channel-2 history right after setup() is [0,1,2,3,4,5,6,7], not a constant
buffer holding one single initial sample. -/
theorem setup_not_single_sample :
    ¬ ∃ v, (setupState (fun _ => 0) (fun k => k) (fun _ => 0)
        (fun _ => 0)).adcHist2 = List.replicate smoothingSamples v := by
  rintro ⟨v, h⟩
  have h8 : (setupState (fun _ => 0) (fun k => k) (fun _ => 0)
      (fun _ => 0)).adcHist2 = [0, 1, 2, 3, 4, 5, 6, 7] := rfl
  have hrep : List.replicate smoothingSamples v = [v, v, v, v, v, v, v, v] := rfl
  rw [h8, hrep] at h
  simp at h
  omega

/-- C3 amended: setup() fills channel 1's whole history with the single
sample read once from pin 1 before the loop, while each slot of channels
2, 3 and 4 receives its own fresh raw sample (slot i holds the i-th read of
that pin); the cursor is left at 0. -/
theorem setup_buffers_eq (r1 r2 r3 r4 : Nat → Nat) :
    (setupState r1 r2 r3 r4).adcHist1 = List.replicate smoothingSamples (r1 0) ∧
    (setupState r1 r2 r3 r4).adcHist2 = (List.range smoothingSamples).map r2 ∧
    (setupState r1 r2 r3 r4).adcHist3 = (List.range smoothingSamples).map r3 ∧
    (setupState r1 r2 r3 r4).adcHist4 = (List.range smoothingSamples).map r4 ∧
    (setupState r1 r2 r3 r4).histIndex = 0 :=
  ⟨rfl, rfl, rfl, rfl, rfl⟩

/-! ### Rendering lemmas -/

theorem round_le_round (x y : ℚ) (h : x ≤ y) : round x ≤ round y := by
  rw [round_eq, round_eq]
  exact Int.floor_mono (by linarith)

theorem round_mul_nonneg (q : ℚ) (n : Nat) (hq : 0 ≤ q) :
    0 ≤ round (q * (n : ℚ)) := by
  have := round_le_round 0 (q * (n : ℚ)) (by positivity)
  simpa using this

theorem round_mul_le (q : ℚ) (n : Nat) (hq : q ≤ 1) :
    round (q * (n : ℚ)) ≤ (n : ℤ) := by
  have h1 : q * (n : ℚ) ≤ (n : ℚ) := by
    have hn : (0 : ℚ) ≤ (n : ℚ) := by positivity
    nlinarith
  have := round_le_round _ _ h1
  simpa using this

theorem cascadeBuffer_succ (n lit : Nat) :
    cascadeBuffer n (lit + 1) = (cascadeBuffer n lit).set (n - 1 - lit) baseColor := by
  rw [cascadeBuffer, cascadeBuffer, List.range_succ, List.foldl_append]
  rfl

theorem cascadeBuffer_length (n lit : Nat) : (cascadeBuffer n lit).length = n := by
  induction lit with
  | zero => simp [cascadeBuffer]
  | succ lit ih => rw [cascadeBuffer_succ]; simp [ih]

theorem cascadeBuffer_getD (n lit : Nat) (hlit : lit ≤ n) :
    ∀ i, i < n → (cascadeBuffer n lit).getD i black =
      if n - lit ≤ i then baseColor else black := by
  induction lit with
  | zero =>
    intro i hi
    rw [if_neg (by omega)]
    have hrep : cascadeBuffer n 0 = List.replicate n black := rfl
    rw [hrep, List.getD_eq_getElem _ _ (by simpa using hi), List.getElem_replicate]
  | succ lit ih =>
    intro i hi
    rw [cascadeBuffer_succ]
    have hl : i < (cascadeBuffer n lit).length := by
      rw [cascadeBuffer_length]; exact hi
    have hl2 : i < ((cascadeBuffer n lit).set (n - 1 - lit) baseColor).length := by
      simpa using hl
    rw [List.getD_eq_getElem _ black hl2, List.getElem_set]
    by_cases hcase : n - 1 - lit = i
    · rw [if_pos hcase, if_pos (by omega)]
    · rw [if_neg hcase, ← List.getD_eq_getElem _ black hl, ih (by omega) i hi]
      by_cases h2 : n - lit ≤ i
      · rw [if_pos h2, if_pos (by omega)]
      · rw [if_neg h2, if_neg (by omega)]

theorem ledsToLight_half_75 : ledsToLight (1 / 2) 75 = 38 := by
  have hq : (1 / 2 : ℚ) * (75 : Nat) + 1 / 2 = ((38 : ℤ) : ℚ) := by norm_num
  rw [ledsToLight, round_eq, hq, Int.floor_intCast]
  rfl

/-- C4: the cascade pass lights round(cascadeFraction * N) pixels (a value
already within [0, N]); fraction 0 lights none, 1 lights all, the count is
monotone in the fraction, and the lit pixels are exactly the contiguous top
block of indices N-1 down to N-litCount; concretely N = 75 with fraction 1/2
gives 38 lit pixels, indices 37..74 base-colored and 0..36 black. -/
theorem cascade_correct :
    (∀ (q : ℚ) (n : Nat), 0 ≤ q → q ≤ 1 →
        (ledsToLight q n : ℤ) = round (q * (n : ℚ)) ∧ ledsToLight q n ≤ n) ∧
    (∀ n : Nat, ledsToLight 0 n = 0) ∧
    (∀ n : Nat, ledsToLight 1 n = n) ∧
    (∀ (q q' : ℚ) (n : Nat), q ≤ q' → ledsToLight q n ≤ ledsToLight q' n) ∧
    (∀ (q : ℚ) (n : Nat), 0 ≤ q → q ≤ 1 → ∀ i, i < n →
        (cascadeBuffer n (ledsToLight q n)).getD i black =
          if n - ledsToLight q n ≤ i then baseColor else black) ∧
    ledsToLight (1 / 2) 75 = 38 ∧
    (∀ i, i < 75 →
        (cascadeBuffer 75 (ledsToLight (1 / 2) 75)).getD i black =
          if 37 ≤ i then baseColor else black) := by
  have hbound : ∀ (q : ℚ) (n : Nat), 0 ≤ q → q ≤ 1 →
      (ledsToLight q n : ℤ) = round (q * (n : ℚ)) ∧ ledsToLight q n ≤ n := by
    intro q n h0 h1
    have hlo := round_mul_nonneg q n h0
    have hhi := round_mul_le q n h1
    constructor
    · rw [ledsToLight]; omega
    · rw [ledsToLight]; omega
  have hblock : ∀ (q : ℚ) (n : Nat), 0 ≤ q → q ≤ 1 → ∀ i, i < n →
      (cascadeBuffer n (ledsToLight q n)).getD i black =
        if n - ledsToLight q n ≤ i then baseColor else black := by
    intro q n h0 h1 i hi
    exact cascadeBuffer_getD n _ (hbound q n h0 h1).2 i hi
  refine ⟨hbound, ?_, ?_, ?_, hblock, ledsToLight_half_75, ?_⟩
  · intro n; simp [ledsToLight]
  · intro n; simp [ledsToLight]
  · intro q q' n h
    exact Int.toNat_le_toNat (round_le_round _ _
      (mul_le_mul_of_nonneg_right h (by positivity)))
  · intro i hi
    rw [ledsToLight_half_75]
    have h := hblock (1 / 2) 75 (by norm_num) (by norm_num) i hi
    rw [ledsToLight_half_75, show 75 - 38 = 37 from rfl] at h
    exact h

/-- Witness for the cascade theorem: at N = 75, fraction 1/2, pixel 37 is
the first lit pixel. -/
theorem cascade_correct_witness :
    (cascadeBuffer 75 (ledsToLight (1 / 2) 75)).getD 37 black =
      if 37 ≤ 37 then baseColor else black :=
  cascade_correct.2.2.2.2.2.2 37 (by norm_num)

/-- C5: normalization maps 0 to 0 and full scale to 1, is monotone in the
sample, and always lands in [0,1]. -/
theorem normalize_spec :
    (∀ F : Nat, 0 < F → normalize 0 F = 0 ∧ normalize F F = 1) ∧
    (∀ s s' F : Nat, s ≤ s' → normalize s F ≤ normalize s' F) ∧
    (∀ s F : Nat, 0 ≤ normalize s F ∧ normalize s F ≤ 1) := by
  refine ⟨?_, ?_, ?_⟩
  · intro F hF
    constructor
    · simp [normalize, constrainQ]
    · have hFq : (F : ℚ) / (F : ℚ) = 1 := div_self (by positivity)
      simp [normalize, constrainQ, hFq]
  · intro s s' F hss
    have hd : (s : ℚ) / (F : ℚ) ≤ (s' : ℚ) / (F : ℚ) := by
      rcases Nat.eq_zero_or_pos F with hF | hF
      · simp [hF]
      · have hFq : (0 : ℚ) < (F : ℚ) := by positivity
        exact (div_le_div_iff_of_pos_right hFq).mpr (by exact_mod_cast hss)
    unfold normalize constrainQ
    split_ifs <;> linarith
  · intro s F
    unfold normalize constrainQ
    have hd : 0 ≤ (s : ℚ) / (F : ℚ) := by positivity
    split_ifs <;> constructor <;> linarith

/-- Witness for the normalization theorem at the sketch's full scale 4095. -/
theorem normalize_spec_witness :
    normalize 0 ADC_MAX = 0 ∧ normalize ADC_MAX ADC_MAX = 1 :=
  normalize_spec.1 ADC_MAX (by norm_num [ADC_MAX])

/-- C8: the additive blend saturates each channel at 255 instead of
wrapping: the result stays within range and never drops below the existing
pixel value. -/
theorem additive_blend_saturates (c p : CRGB)
    (h1 : c.r ≤ 255) (h2 : c.g ≤ 255) (h3 : c.b ≤ 255) :
    ((addColor c p).r ≤ 255 ∧ (addColor c p).g ≤ 255 ∧ (addColor c p).b ≤ 255) ∧
    (c.r ≤ (addColor c p).r ∧ c.g ≤ (addColor c p).g ∧ c.b ≤ (addColor c p).b) := by
  simp only [addColor, qadd8]
  refine ⟨⟨?_, ?_, ?_⟩, ?_, ?_, ?_⟩ <;> omega

/-- Witness for saturation: a pixel already near channel maximum (250) plus
a bright overlay stays at 255 and never wraps below 250. -/
theorem additive_blend_saturates_witness :
    ((addColor ⟨250, 250, 250⟩ ⟨200, 200, 200⟩).r ≤ 255 ∧
     (addColor ⟨250, 250, 250⟩ ⟨200, 200, 200⟩).g ≤ 255 ∧
     (addColor ⟨250, 250, 250⟩ ⟨200, 200, 200⟩).b ≤ 255) ∧
    ((⟨250, 250, 250⟩ : CRGB).r ≤ (addColor ⟨250, 250, 250⟩ ⟨200, 200, 200⟩).r ∧
     (⟨250, 250, 250⟩ : CRGB).g ≤ (addColor ⟨250, 250, 250⟩ ⟨200, 200, 200⟩).g ∧
     (⟨250, 250, 250⟩ : CRGB).b ≤ (addColor ⟨250, 250, 250⟩ ⟨200, 200, 200⟩).b) :=
  additive_blend_saturates ⟨250, 250, 250⟩ ⟨200, 200, 200⟩
    (by decide) (by decide) (by decide)

/-! ### Pulse-period lemmas -/

theorem neg_natCast_tdiv (a b : Nat) :
    (-(a : ℤ)).tdiv (b : ℤ) = -((a / b : Nat) : ℤ) := by
  cases a with
  | zero => simp
  | succ k => rfl

theorem round_q_thousand_nonneg (q : ℚ) (h0 : 0 ≤ q) : 0 ≤ round (q * 1000) := by
  have := round_le_round 0 (q * 1000) (by positivity)
  simpa using this

theorem round_q_thousand_le (q : ℚ) (h1 : q ≤ 1) : round (q * 1000) ≤ 1000 := by
  have h := round_le_round (q * 1000) 1000 (by nlinarith)
  have h1000 : round ((1000 : ℚ)) = 1000 := by
    rw [show (1000 : ℚ) = ((1000 : ℕ) : ℚ) by norm_num, round_natCast]
    norm_num
  omega

theorem pulsePeriodZ_formula (q : ℚ) (h0 : 0 ≤ q) :
    pulsePeriodZ q = 1400 - ((1250 * (round (q * 1000)).toNat / 1000 : Nat) : ℤ) := by
  have hv : 0 ≤ round (q * 1000) := round_q_thousand_nonneg q h0
  obtain ⟨v, hv'⟩ : ∃ v : Nat, round (q * 1000) = (v : ℤ) :=
    ⟨(round (q * 1000)).toNat, (Int.toNat_of_nonneg hv).symm⟩
  rw [pulsePeriodZ, mapArduino, hv']
  have h1 : ((v : ℤ) - 0) * (150 - 1400) = -((1250 * v : Nat) : ℤ) := by
    push_cast; ring
  rw [h1, show ((1000 : ℤ) - 0) = ((1000 : ℕ) : ℤ) from by norm_num,
    neg_natCast_tdiv, Int.toNat_ofNat]
  omega

theorem pulsePeriod_spec (q : ℚ) (h0 : 0 ≤ q) (h1 : q ≤ 1) :
    pulsePeriod q = 1400 - 1250 * (round (q * 1000)).toNat / 1000 ∧
    150 ≤ pulsePeriod q ∧ pulsePeriod q ≤ 1400 := by
  have hz := pulsePeriodZ_formula q h0
  have hv0 : 0 ≤ round (q * 1000) := round_q_thousand_nonneg q h0
  have hvle : round (q * 1000) ≤ 1000 := round_q_thousand_le q h1
  have h2 : (round (q * 1000)).toNat ≤ 1000 := by omega
  have hd : 1250 * (round (q * 1000)).toNat / 1000 ≤ 1250 :=
    calc 1250 * (round (q * 1000)).toNat / 1000 ≤ 1250 * 1000 / 1000 :=
          Nat.div_le_div_right (Nat.mul_le_mul_left _ h2)
      _ = 1250 := by norm_num
  have hzge : (0 : ℤ) ≤ pulsePeriodZ q := by rw [hz]; omega
  have hzlt : pulsePeriodZ q < 65536 := by rw [hz]; omega
  rw [pulsePeriod, Int.emod_eq_of_lt hzge hzlt, hz]
  omega

theorem pulsePeriod_one : pulsePeriod 1 = 150 := by
  have h := (pulsePeriod_spec 1 (by norm_num) le_rfl).1
  have hr : round ((1 : ℚ) * 1000) = 1000 := by
    rw [one_mul, show (1000 : ℚ) = ((1000 : ℕ) : ℚ) by norm_num, round_natCast]
    norm_num
  rw [h, hr]
  rfl

theorem pulsePeriod_zero : pulsePeriod 0 = 1400 := by
  have h := (pulsePeriod_spec 0 le_rfl (by norm_num)).1
  have hr : round ((0 : ℚ) * 1000) = 0 := by rw [zero_mul, round_zero]
  rw [h, hr]
  rfl

theorem pulseAmp_one : pulseAmp 1 = 200 := by
  rw [pulseAmp, one_mul, show (200 : ℚ) = ((200 : ℤ) : ℚ) by norm_num,
    Int.floor_intCast]
  rfl

theorem hueOf_one : hueOf 1 = 255 := by
  rw [hueOf, one_mul, show (255 : ℚ) = ((255 : ℕ) : ℚ) by norm_num, round_natCast]
  rfl

/-- C6: at pulseFraction 1 the period is the fast bound 150 and the
amplitude the maximum 200; at 0 the period is the slow bound 1400; in
between the period is the integer linear interpolation from 1400 down to
150 (within rounding error below 2 of the exact line, and antitone). -/
theorem pulse_period_interpolation :
    pulsePeriod 1 = 150 ∧ pulseAmp 1 = 200 ∧ pulsePeriod 0 = 1400 ∧
    (∀ q : ℚ, 0 ≤ q → q ≤ 1 →
        |(pulsePeriod q : ℚ) - (1400 - 1250 * q)| < 2) ∧
    (∀ q q' : ℚ, 0 ≤ q → q ≤ q' → q' ≤ 1 → pulsePeriod q' ≤ pulsePeriod q) := by
  refine ⟨pulsePeriod_one, pulseAmp_one, pulsePeriod_zero, ?_, ?_⟩
  · intro q h0 h1
    obtain ⟨heq, -, -⟩ := pulsePeriod_spec q h0 h1
    have hv0 : 0 ≤ round (q * 1000) := round_q_thousand_nonneg q h0
    have hvle : round (q * 1000) ≤ 1000 := round_q_thousand_le q h1
    set vN : Nat := (round (q * 1000)).toNat with hvN
    have hcast : (vN : ℚ) = ((round (q * 1000) : ℤ) : ℚ) := by
      have h := Int.toNat_of_nonneg hv0
      rw [hvN]
      exact_mod_cast congrArg (fun z : ℤ => (z : ℚ)) h
    have hdm := Nat.div_add_mod (1250 * vN) 1000
    have hmlt : 1250 * vN % 1000 < 1000 := Nat.mod_lt _ (by norm_num)
    have hdle : 1250 * vN / 1000 ≤ 1250 := by
      have h2 : vN ≤ 1000 := by omega
      calc 1250 * vN / 1000 ≤ 1250 * 1000 / 1000 :=
            Nat.div_le_div_right (Nat.mul_le_mul_left _ h2)
        _ = 1250 := by norm_num
    have hppq : (pulsePeriod q : ℚ) = 1400 - (1250 * vN / 1000 : Nat) := by
      rw [heq]
      push_cast [Nat.cast_sub (by omega : 1250 * vN / 1000 ≤ 1400)]
      ring
    rw [hppq, abs_lt]
    have hdmq : ((1250 * vN / 1000 : Nat) : ℚ) * 1000 + ((1250 * vN % 1000 : Nat) : ℚ)
        = 1250 * (vN : ℚ) := by
      have h := congrArg (fun x : Nat => (x : ℚ)) hdm
      push_cast at h
      linarith
    have hvq : |q * 1000 - (vN : ℚ)| ≤ 1 / 2 := by
      rw [hcast]
      exact abs_sub_round (q * 1000)
    have hvq' := abs_le.mp hvq
    have hmq0 : (0 : ℚ) ≤ ((1250 * vN % 1000 : Nat) : ℚ) := by positivity
    have hmq1 : ((1250 * vN % 1000 : Nat) : ℚ) < 1000 := by
      exact_mod_cast hmlt
    constructor <;> nlinarith [hvq'.1, hvq'.2]
  · intro q q' h0 hqq h1
    obtain ⟨heq, -, -⟩ := pulsePeriod_spec q h0 (le_trans hqq h1)
    obtain ⟨heq', -, -⟩ := pulsePeriod_spec q' (le_trans h0 hqq) h1
    have hv0 : 0 ≤ round (q * 1000) := round_q_thousand_nonneg q h0
    have hmono : round (q * 1000) ≤ round (q' * 1000) :=
      round_le_round _ _ (by nlinarith)
    have htn : (round (q * 1000)).toNat ≤ (round (q' * 1000)).toNat := by omega
    have hdiv : 1250 * (round (q * 1000)).toNat / 1000 ≤
        1250 * (round (q' * 1000)).toNat / 1000 :=
      Nat.div_le_div_right (Nat.mul_le_mul_left _ htn)
    rw [heq, heq']
    omega

/-- Witness for the interpolation theorem at pulseFraction 1/2. -/
theorem pulse_period_interpolation_witness :
    |(pulsePeriod (1 / 2) : ℚ) - (1400 - 1250 * (1 / 2))| < 2 :=
  pulse_period_interpolation.2.2.2.1 (1 / 2) (by norm_num) (by norm_num)

/-- C10: for every pulseFraction in [0,1] the derived period stays in
[150, 1400], in particular never 0, so t mod period and the division by
period in the phase computation are well-defined. -/
theorem pulse_period_safe (q : ℚ) (h0 : 0 ≤ q) (h1 : q ≤ 1) :
    150 ≤ pulsePeriod q ∧ pulsePeriod q ≤ 1400 ∧ pulsePeriod q ≠ 0 := by
  obtain ⟨-, hlo, hhi⟩ := pulsePeriod_spec q h0 h1
  exact ⟨hlo, hhi, by omega⟩

/-- Witness for the period-safety theorem at pulseFraction 1/2. -/
theorem pulse_period_safe_witness :
    150 ≤ pulsePeriod (1 / 2) ∧ pulsePeriod (1 / 2) ≤ 1400 ∧
      pulsePeriod (1 / 2) ≠ 0 :=
  pulse_period_safe (1 / 2) (by norm_num) (by norm_num)

/-! ### HSV conversion and overlay lemmas -/

theorem scale_div_le (v x : Nat) (hx : x ≤ 255) : v * x / 255 ≤ v :=
  calc v * x / 255 ≤ v * 255 / 255 :=
        Nat.div_le_div_right (Nat.mul_le_mul_left v hx)
    _ = v := Nat.mul_div_cancel v (by norm_num)

theorem hsv2rgb_le (h s v : Nat) :
    (hsv2rgb h s v).r ≤ v ∧ (hsv2rgb h s v).g ≤ v ∧ (hsv2rgb h s v).b ≤ v := by
  by_cases hs : s = 0
  · simp [hsv2rgb, hs]
  · simp only [hsv2rgb, if_neg hs]
    split <;> refine ⟨?_, ?_, ?_⟩ <;>
      first
      | exact le_rfl
      | exact scale_div_le _ _ (by omega)

theorem hsv2rgb_val_zero (h s : Nat) : hsv2rgb h s 0 = black := by
  by_cases hs : s = 0
  · simp [hsv2rgb, hs, black]
  · simp only [hsv2rgb, if_neg hs, Nat.zero_mul, Nat.zero_div]
    split <;> rfl

theorem addColor_black (c : CRGB) (h1 : c.r ≤ 255) (h2 : c.g ≤ 255)
    (h3 : c.b ≤ 255) : addColor c black = c := by
  obtain ⟨r, g, b⟩ := c
  simp only [addColor, qadd8, black, CRGB.mk.injEq]
  simp only at h1 h2 h3
  omega

theorem cascadeBuffer_mem (n lit : Nat) (c : CRGB)
    (hc : c ∈ cascadeBuffer n lit) : c = black ∨ c = baseColor := by
  induction lit with
  | zero =>
    left
    have hrep : cascadeBuffer n 0 = List.replicate n black := rfl
    rw [hrep] at hc
    exact List.eq_of_mem_replicate hc
  | succ lit ih =>
    rw [cascadeBuffer_succ] at hc
    rcases List.mem_or_eq_of_mem_set hc with hmem | heq
    · exact ih hmem
    · right; exact heq

theorem baseColor_le (c : CRGB) (h : c = black ∨ c = baseColor) :
    c.r ≤ 255 ∧ c.g ≤ 255 ∧ c.b ≤ 255 := by
  rcases h with rfl | rfl
  · exact ⟨by decide, by decide, by decide⟩
  · exact hsv2rgb_le 160 200 255

theorem pulseAmp_zero : pulseAmp 0 = 0 := by
  simp [pulseAmp]

theorem pulseBright_zero (t : Nat) : pulseBright 0 t = 0 := by
  rw [pulseBright, pulseAmp_zero, pulseBrightOf]
  norm_num

/-- C7: for pulseFraction 0 the pulse brightness is 0 at every time, the
overlay color is black, and the rendered frame equals the cascade-only
buffer exactly. -/
theorem pulse_zero_identity (nLeds : Nat) (nc : ℚ) (t : Nat) :
    handleCascadeAndPulse nLeds nc 0 t =
      cascadeBuffer nLeds (ledsToLight nc nLeds) := by
  rw [handleCascadeAndPulse, pulseBright_zero, hsv2rgb_val_zero]
  have hmap : ∀ c ∈ cascadeBuffer nLeds (ledsToLight nc nLeds),
      addColor c black = c := by
    intro c hc
    obtain ⟨h1, h2, h3⟩ := baseColor_le c (cascadeBuffer_mem _ _ c hc)
    exact addColor_black c h1 h2 h3
  calc (cascadeBuffer nLeds (ledsToLight nc nLeds)).map (fun c => addColor c black)
      = (cascadeBuffer nLeds (ledsToLight nc nLeds)).map id :=
        List.map_congr_left hmap
    _ = cascadeBuffer nLeds (ledsToLight nc nLeds) := List.map_id _

theorem phase_one_zero : phase 1 0 = 1 / 2 := by
  rw [phase, pulsePeriod_one]
  norm_num [Real.sin_zero]

theorem pulseBright_one_zero : pulseBright 1 0 = 100 := by
  rw [pulseBright, phase_one_zero, pulseAmp_one, pulseBrightOf]
  rw [show (1 : ℝ) / 2 * ((200 : Nat) : ℝ) = ((100 : ℤ) : ℝ) by norm_num,
    Int.floor_intCast]
  rfl

/-- Counterexample to C2 as stated: at phase 1/2 with amplitude 1 the code's
float-to-byte cast truncates 0.5 to 0, but round(0.5 * 1) = 1, so the
brightness is not round(phase * amplitude) for every phase and amplitude. -/
theorem pulse_bright_not_round :
    pulseBrightOf ((1 : ℝ) / 2) 1 ≠ (round ((1 : ℝ) / 2 * ((1 : Nat) : ℝ))).toNat := by
  have hl : pulseBrightOf ((1 : ℝ) / 2) 1 = 0 := by
    rw [pulseBrightOf]
    have hfloor : ⌊(1 : ℝ) / 2 * ((1 : Nat) : ℝ)⌋ = 0 := by
      rw [Int.floor_eq_zero_iff]
      constructor <;> norm_num
    rw [hfloor]
    rfl
  have hr : round ((1 : ℝ) / 2 * ((1 : Nat) : ℝ)) = 1 := by
    rw [round_eq, show (1 : ℝ) / 2 * ((1 : Nat) : ℝ) + 1 / 2 = ((1 : ℤ) : ℝ) by
      norm_num, Int.floor_intCast]
  rw [hl, hr]
  decide

/-- C2 amended: the brightness byte is the truncation (floor) of
phase * amplitude rather than its rounding; the end-to-end scenario still
holds: at pulseFraction 1 and time 0 the phase is 0.5, the brightness is
100 (here floor and round agree), and CHSV(255, 200, 100) is blended
additively onto every pixel of the cascade buffer. -/
theorem pulse_brightness_truncates :
    (∀ (ph : ℝ) (amp : Nat), 0 ≤ ph →
        (pulseBrightOf ph amp : ℤ) = ⌊ph * (amp : ℝ)⌋) ∧
    phase 1 0 = 1 / 2 ∧
    pulseBright 1 0 = 100 ∧
    hueOf 1 = 255 ∧ pulseAmp 1 = 200 ∧
    (∀ (nLeds : Nat) (nc : ℚ) ,
        handleCascadeAndPulse nLeds nc 1 0 =
          (cascadeBuffer nLeds (ledsToLight nc nLeds)).map
            (fun c => addColor c (hsv2rgb 255 200 100))) := by
  refine ⟨?_, phase_one_zero, pulseBright_one_zero, hueOf_one, pulseAmp_one, ?_⟩
  · intro ph amp hph
    rw [pulseBrightOf]
    exact Int.toNat_of_nonneg (Int.floor_nonneg.mpr (by positivity))
  · intro nLeds nc
    rw [handleCascadeAndPulse, pulseBright_one_zero, hueOf_one]

/-- Witness for the truncation theorem at phase 1/2, amplitude 200. -/
theorem pulse_brightness_truncates_witness :
    (pulseBrightOf ((1 : ℝ) / 2) 200 : ℤ) = ⌊(1 : ℝ) / 2 * ((200 : Nat) : ℝ)⌋ :=
  pulse_brightness_truncates.1 ((1 : ℝ) / 2) 200 (by norm_num)

end SensorFlex
